import Mathlib

set_option maxRecDepth 8000

/-!
Verification of the Teeko-playing agent (`alphateeko.py`, class `TeekoPlayer`).

The shallow embedding below translates the non-I/O core of the source:
the 5×5 board model, the heuristic evaluator (`heuristic_game_value`,
`_count_line`, `_count_box`), the terminal detector (`game_value`),
the successor generator (`_generate_successors`), the depth-limited
minimax search (`_minimax`, `make_move`) and the opponent-move
validator (`opponent_move`, `place_piece`).

Python floats only ever hold exact small rationals and the two
infinities here, so values are modelled by `WithBot (WithTop ℚ)`;
the `random.choice` fallback of `make_move` is modelled by an explicit
`pick` parameter selecting an index into the successor list; raising
`ValueError` is modelled by `Except`.
-/

/-- A board cell: empty, or one of the two piece values `'X'` / `'O'`. -/
inductive Cell where
  | empty
  | X
  | O
deriving DecidableEq, Repr

/-- The board: a list of rows of cells (5×5 in well-formed states). -/
abbrev Board := List (List Cell)

abbrev Coord := ℕ × ℕ

/-- Read `state[r][c]` (total: out-of-range reads give `empty`; the source
only indexes in range on well-formed boards). -/
def getCell (b : Board) (r c : ℕ) : Cell :=
  (b.getD r []).getD c Cell.empty

/-- Write `state[r][c] = v` as a pure update. -/
def setCell (b : Board) (r c : ℕ) (v : Cell) : Board :=
  b.set r ((b.getD r []).set c v)

/-- Source `copy.deepcopy` on a board: structural copy of every row. -/
def deepcopy (b : Board) : Board :=
  b.map (fun row => row.map (fun x => x))

/-- The opposing piece value (`self.opp` as a function of `self.my_piece`). -/
def other (p : Cell) : Cell :=
  match p with
  | Cell.X => Cell.O
  | Cell.O => Cell.X
  | Cell.empty => Cell.empty

/-- Well-formedness: the board is exactly 5×5. -/
def WF (b : Board) : Prop :=
  b.length = 5 ∧ ∀ row ∈ b, row.length = 5

instance (b : Board) : Decidable (WF b) := by
  unfold WF; infer_instance

/-- All `(i, j)` cell coordinates in the row-major order of the source's
nested `for i in range(5): for j in range(5)` loops. -/
def allIJ : List Coord :=
  (List.range 5).flatMap (fun i => (List.range 5).map (fun j => (i, j)))

/-- The shared loop body of `_count_line` and `_count_box`: scan the given
cells, counting occurrences of `piece`, returning 0 as soon as a cell
holds a different non-empty piece ("Blocked by opponent"). -/
def countCells (state : Board) (piece : Cell) : List Coord → ℕ → ℕ
  | [], count => count
  | rc :: rest, count =>
    let cell := getCell state rc.1 rc.2
    if cell = piece then countCells state piece rest (count + 1)
    else if cell ≠ Cell.empty then 0
    else countCells state piece rest count

/-- The four cells `state[r + i*dr][c + i*dc]`, `i = 0..3`, of a line window. -/
def lineCells (r c : ℕ) (dr dc : ℤ) : List Coord :=
  (List.range 4).map (fun i => (((r : ℤ) + i * dr).toNat, ((c : ℤ) + i * dc).toNat))

/-- Source `_count_line`. -/
def _count_line (state : Board) (r c : ℕ) (dr dc : ℤ) (piece : Cell) : ℕ :=
  countCells state piece (lineCells r c dr dc) 0

/-- The four cells of the 2×2 box at `(r, c)`, in the source's scan order. -/
def boxCells (r c : ℕ) : List Coord :=
  [(r, c), (r, c + 1), (r + 1, c), (r + 1, c + 1)]

/-- Source `_count_box`. -/
def _count_box (state : Board) (r c : ℕ) (piece : Cell) : ℕ :=
  countCells state piece (boxCells r c) 0

/-- The windows examined at loop index `(i, j)` of `heuristic_game_value`,
in the source's order: horizontal, vertical, both diagonals, 2×2 box,
each under its guard. -/
def windowsAt (ij : Coord) : List (List Coord) :=
  (if ij.2 ≤ 1 then [lineCells ij.1 ij.2 0 1] else []) ++
  (if ij.1 ≤ 1 then [lineCells ij.1 ij.2 1 0] else []) ++
  (if ij.1 ≤ 1 ∧ ij.2 ≤ 1 then [lineCells ij.1 ij.2 1 1] else []) ++
  (if ij.1 ≤ 1 ∧ 3 ≤ ij.2 then [lineCells ij.1 ij.2 1 (-1)] else []) ++
  (if ij.1 < 4 ∧ ij.2 < 4 then [boxCells ij.1 ij.2] else [])

/-- One iteration of the `heuristic_game_value` double loop: the guarded
`my_val = max(...)` / `opp_val = max(...)` updates at index `(i, j)`. -/
def hStep (state : Board) (me : Cell) (acc : ℕ × ℕ) (ij : Coord) : ℕ × ℕ :=
  let op := other me
  let a1 := if ij.2 ≤ 1 then
      (max acc.1 (_count_line state ij.1 ij.2 0 1 me),
       max acc.2 (_count_line state ij.1 ij.2 0 1 op))
    else acc
  let a2 := if ij.1 ≤ 1 then
      (max a1.1 (_count_line state ij.1 ij.2 1 0 me),
       max a1.2 (_count_line state ij.1 ij.2 1 0 op))
    else a1
  let a3 := if ij.1 ≤ 1 ∧ ij.2 ≤ 1 then
      (max a2.1 (_count_line state ij.1 ij.2 1 1 me),
       max a2.2 (_count_line state ij.1 ij.2 1 1 op))
    else a2
  let a4 := if ij.1 ≤ 1 ∧ 3 ≤ ij.2 then
      (max a3.1 (_count_line state ij.1 ij.2 1 (-1) me),
       max a3.2 (_count_line state ij.1 ij.2 1 (-1) op))
    else a3
  if ij.1 < 4 ∧ ij.2 < 4 then
    (max a4.1 (_count_box state ij.1 ij.2 me),
     max a4.2 (_count_box state ij.1 ij.2 op))
  else a4

/-- Source `heuristic_game_value`: `(my_val - opp_val) / 4` after the
double loop of guarded max-updates. -/
def heuristic_game_value (state : Board) (me : Cell) : ℚ :=
  let mv := allIJ.foldl (hStep state me) (0, 0)
  ((mv.1 : ℚ) - (mv.2 : ℚ)) / 4

/-- Check one candidate winning window: its first cell's value if that value
is non-empty and repeated across the window, else `none`. -/
def winAt (state : Board) : List Coord → Option Cell
  | [] => none
  | rc :: rest =>
    let v := getCell state rc.1 rc.2
    if v ≠ Cell.empty ∧ ∀ rc2 ∈ rest, getCell state rc2.1 rc2.2 = v then some v
    else none

/-- All winning windows in the exact scan order of `game_value`:
horizontal, vertical, ↘ diagonal, ↙ diagonal, 2×2 box. -/
def gvWindows : List (List Coord) :=
  ((List.range 5).flatMap (fun r => (List.range 2).map (fun i =>
      [(r, i), (r, i + 1), (r, i + 2), (r, i + 3)]))) ++
  ((List.range 5).flatMap (fun col => (List.range 2).map (fun i =>
      [(i, col), (i + 1, col), (i + 2, col), (i + 3, col)]))) ++
  ((List.range 2).flatMap (fun i => (List.range 2).map (fun j =>
      [(i, j), (i + 1, j + 1), (i + 2, j + 2), (i + 3, j + 3)]))) ++
  ((List.range 2).flatMap (fun i => ([3, 4] : List ℕ).map (fun j =>
      [(i, j), (i + 1, j - 1), (i + 2, j - 2), (i + 3, j - 3)]))) ++
  ((List.range 4).flatMap (fun i => (List.range 4).map (fun j =>
      [(i, j), (i + 1, j), (i, j + 1), (i + 1, j + 1)])))

/-- First matching window wins, by scan order. -/
def firstWin (state : Board) : List (List Coord) → Option Cell
  | [] => none
  | w :: ws =>
    match winAt state w with
    | some p => some p
    | none => firstWin state ws

/-- The piece owning the first completed pattern found, if any. -/
def findWinner (state : Board) : Option Cell :=
  firstWin state gvWindows

/-- Source `game_value`: 1 if this player wins, -1 if the opponent wins,
0 if no winner. -/
def game_value (me : Cell) (state : Board) : ℤ :=
  match findWinner state with
  | some p => if p = me then 1 else -1
  | none => 0

/-- Source expression `sum(row.count(self.my_piece) + row.count(self.opp) for row in state)`. -/
def numPieces (state : Board) (me : Cell) : ℕ :=
  (state.map (fun row => row.count me + row.count (other me))).sum

/-- Whether a cell is occupied (non-empty). -/
def isOcc : Cell → Bool
  | Cell.empty => false
  | _ => true

/-- Total number of occupied cells of the board. -/
def countOccupied (state : Board) : ℕ :=
  (state.map (fun row => row.countP isOcc)).sum

/-- The empty cells of the board, in row-major order. -/
def emptyCells (state : Board) : List Coord :=
  allIJ.filter (fun rc => decide (getCell state rc.1 rc.2 = Cell.empty))

/-- The 8 king-move offsets in the source's `for dr: for dc:` order
(the `(0, 0)` offset is skipped by `continue`). -/
def offsets : List (ℤ × ℤ) :=
  [(-1, -1), (-1, 0), (-1, 1), (0, -1), (0, 1), (1, -1), (1, 0), (1, 1)]

/-- Source `_generate_successors`: drop phase while the total piece count
is `< 8`, else move phase over king-move neighbours. -/
def _generate_successors (me : Cell) (state : Board) (piece : Cell) :
    List (Board × List Coord) :=
  if numPieces state me < 8 then
    allIJ.flatMap (fun rc =>
      if getCell state rc.1 rc.2 = Cell.empty then
        [(setCell (deepcopy state) rc.1 rc.2 piece, [rc])]
      else [])
  else
    allIJ.flatMap (fun rc =>
      if getCell state rc.1 rc.2 = piece then
        offsets.flatMap (fun d =>
          let rn := (rc.1 : ℤ) + d.1
          let cn := (rc.2 : ℤ) + d.2
          if 0 ≤ rn ∧ rn < 5 ∧ 0 ≤ cn ∧ cn < 5 ∧
              getCell state rn.toNat cn.toNat = Cell.empty then
            [(setCell (setCell (deepcopy state) rc.1 rc.2 Cell.empty)
                rn.toNat cn.toNat piece,
              [(rn.toNat, cn.toNat), rc])]
          else [])
      else [])

/-- Minimax values: rationals extended with `float('-inf')` (`⊥`) and
`float('inf')` (`⊤`). -/
abbrev Val := WithBot (WithTop ℚ)

/-- Embed a finite value. -/
def vq (x : ℚ) : Val := ((x : WithTop ℚ) : Val)

/-- The maximizing loop of `_minimax`: start from `(-inf, None)`, replace
the incumbent only on a strict improvement (`evaluation > max_eval`). -/
def bestMax (l : List (Val × List Coord)) : Val × Option (List Coord) :=
  l.foldl (fun acc vm => if acc.1 < vm.1 then (vm.1, some vm.2) else acc)
    ((⊥ : Val), none)

/-- The minimizing loop of `_minimax`: start from `(inf, None)`, replace
the incumbent only on a strict improvement (`evaluation < min_eval`). -/
def bestMin (l : List (Val × List Coord)) : Val × Option (List Coord) :=
  l.foldl (fun acc vm => if vm.1 < acc.1 then (vm.1, some vm.2) else acc)
    ((⊤ : Val), none)

/-- Source `_minimax`, with remaining depth as fuel: a call at depth `d`
with configured depth `D` corresponds to fuel `D - d`. Terminal states are
scored first; at fuel 0 the heuristic (relative to `me`) is returned. -/
def minimaxAux (me : Cell) : ℕ → Board → Bool → Val × Option (List Coord)
  | fuel, state, isMax =>
    if game_value me state ≠ 0 then (vq (game_value me state : ℚ), none)
    else
      match fuel with
      | 0 => (vq (heuristic_game_value state me), none)
      | f + 1 =>
        let kids := (_generate_successors me state (if isMax then me else other me)).map
          (fun sm => ((minimaxAux me f sm.1 (!isMax)).1, sm.2))
        if isMax then bestMax kids else bestMin kids

/-- Source `_minimax` in its original depth-counting form. -/
def _minimax (me : Cell) (D : ℕ) (state : Board) (depth : ℕ) (isMax : Bool) :
    Val × Option (List Coord) :=
  minimaxAux me (D - depth) state isMax

/-- Source `make_move`, additionally returning the final value of its
`state` argument (the code never writes to it: search runs on
`copy.deepcopy(state)` and the generator copies before writing).
`pick` models the `random.choice` fallback as an index choice. -/
def make_move_tr (me : Cell) (D : ℕ) (state : Board) (pick : ℕ) :
    List Coord × Board :=
  let state_copy := deepcopy state
  match (minimaxAux me D state_copy true).2 with
  | some m => (m, state)
  | none =>
    let succs := _generate_successors me state me
    if succs.isEmpty then ([], state)
    else ((succs.getD (pick % succs.length) ([], [])).2, state)

/-- Source `make_move`: the move actually returned. -/
def make_move (me : Cell) (D : ℕ) (state : Board) (pick : ℕ) : List Coord :=
  (make_move_tr me D state pick).1

/-- The distinct validation failures `opponent_move` can raise. -/
inductive VErr where
  | malformedMove
  | destOutOfBounds
  | destOccupied
  | srcOutOfBounds
  | srcNotOwned
  | nonAdjacent
deriving DecidableEq, Repr

/-- Source `place_piece`: clear the source cell (if a relocation), then
write `piece` to the destination cell. -/
def place_piece (b : Board) (move : List (ℤ × ℤ)) (piece : Cell) : Board :=
  let b1 := if 1 < move.length then
      setCell b (move.getD 1 (0, 0)).1.toNat (move.getD 1 (0, 0)).2.toNat Cell.empty
    else b
  setCell b1 (move.getD 0 (0, 0)).1.toNat (move.getD 0 (0, 0)).2.toNat piece

/-- Source `opponent_move`: validate in the source's order, raising the
first applicable error, and apply via `place_piece` only on full success. -/
def opponent_move (b : Board) (opp : Cell) (move : List (ℤ × ℤ)) :
    Except VErr Board :=
  if ¬ (1 ≤ move.length ∧ move.length ≤ 2) then Except.error VErr.malformedMove
  else
    let dest := move.getD 0 (0, 0)
    if ¬ (0 ≤ dest.1 ∧ dest.1 < 5 ∧ 0 ≤ dest.2 ∧ dest.2 < 5) then
      Except.error VErr.destOutOfBounds
    else if getCell b dest.1.toNat dest.2.toNat ≠ Cell.empty then
      Except.error VErr.destOccupied
    else if 1 < move.length then
      let src := move.getD 1 (0, 0)
      if ¬ (0 ≤ src.1 ∧ src.1 < 5 ∧ 0 ≤ src.2 ∧ src.2 < 5) then
        Except.error VErr.srcOutOfBounds
      else if getCell b src.1.toNat src.2.toNat ≠ opp then
        Except.error VErr.srcNotOwned
      else if 1 < (src.1 - dest.1).natAbs ∨ 1 < (src.2 - dest.2).natAbs then
        Except.error VErr.nonAdjacent
      else Except.ok (place_piece b move opp)
    else Except.ok (place_piece b move opp)

/-- Maximum of a list of naturals (0 for the empty list). -/
def Lmax (l : List ℕ) : ℕ := l.foldr max 0

/-- The cells currently holding `p`, in row-major order. -/
def pieceCells (s : Board) (p : Cell) : List Coord :=
  allIJ.filter (fun rc => decide (getCell s rc.1 rc.2 = p))

/-- The in-bounds empty king-move neighbours of `rc`, in the source's
offset order. -/
def kingNeighbors (s : Board) (rc : Coord) : List Coord :=
  offsets.filterMap (fun d =>
    if 0 ≤ (rc.1 : ℤ) + d.1 ∧ (rc.1 : ℤ) + d.1 < 5 ∧ 0 ≤ (rc.2 : ℤ) + d.2 ∧
        (rc.2 : ℤ) + d.2 < 5 ∧
        getCell s ((rc.1 : ℤ) + d.1).toNat ((rc.2 : ℤ) + d.2).toNat = Cell.empty
    then some (((rc.1 : ℤ) + d.1).toNat, ((rc.2 : ℤ) + d.2).toNat) else none)

/-- One component of `hStep`: fold the guarded max-updates at `(i, j)` for a
single piece. -/
def mStep (s : Board) (q : Cell) (a : ℕ) (ij : Coord) : ℕ :=
  (windowsAt ij).foldl (fun x w => max x (countCells s q w 0)) a

def loopWindows : List (List Coord) :=
  allIJ.flatMap windowsAt

/-- The per-window count described by the specification's amended reading:
the number of the side's own pieces anywhere in the window, 0 as soon as
any cell of the window holds the opposing piece. -/
def specWindowCount (s : Board) (p : Cell) (w : List Coord) : ℕ :=
  if w.any (fun rc => decide (getCell s rc.1 rc.2 = other p)) then 0
  else w.countP (fun rc => decide (getCell s rc.1 rc.2 = p))

/-- Every window of the five pattern families of the heuristic, grouped by
family: all 10 horizontal, 10 vertical, 4 ↘-diagonal, 4 ↙-diagonal windows
and all 16 2×2 boxes. -/
def heuristicWindows : List (List Coord) :=
  ((List.range 5).flatMap (fun i => (List.range 2).map (fun j => lineCells i j 0 1))) ++
  ((List.range 2).flatMap (fun i => (List.range 5).map (fun j => lineCells i j 1 0))) ++
  ((List.range 2).flatMap (fun i => (List.range 2).map (fun j => lineCells i j 1 1))) ++
  ((List.range 2).flatMap (fun i => ([3, 4] : List ℕ).map (fun j => lineCells i j 1 (-1)))) ++
  ((List.range 4).flatMap (fun i => (List.range 4).map (fun j => boxCells i j)))

/-- A drop-phase board with seven agent pieces and no opponent piece:
X at (0,0),(0,1),(0,2),(2,0),(2,1),(2,2),(4,0), no winner, (0,3) empty. -/
def boardSevenX : Board :=
  [[Cell.X, Cell.X, Cell.X, Cell.empty, Cell.empty],
   [Cell.empty, Cell.empty, Cell.empty, Cell.empty, Cell.empty],
   [Cell.X, Cell.X, Cell.X, Cell.empty, Cell.empty],
   [Cell.empty, Cell.empty, Cell.empty, Cell.empty, Cell.empty],
   [Cell.X, Cell.empty, Cell.empty, Cell.empty, Cell.empty]]

/-- A non-terminal board with X at (0,0) and (0,2) only. -/
def boardTwoX : Board :=
  [[Cell.X, Cell.empty, Cell.X, Cell.empty, Cell.empty],
   [Cell.empty, Cell.empty, Cell.empty, Cell.empty, Cell.empty],
   [Cell.empty, Cell.empty, Cell.empty, Cell.empty, Cell.empty],
   [Cell.empty, Cell.empty, Cell.empty, Cell.empty, Cell.empty],
   [Cell.empty, Cell.empty, Cell.empty, Cell.empty, Cell.empty]]

/-- A terminal board: X occupies (0,0)..(0,3), a horizontal four-in-a-row. -/
def boardTopRow : Board :=
  [[Cell.X, Cell.X, Cell.X, Cell.X, Cell.empty],
   [Cell.empty, Cell.empty, Cell.empty, Cell.empty, Cell.empty],
   [Cell.empty, Cell.empty, Cell.empty, Cell.empty, Cell.empty],
   [Cell.empty, Cell.empty, Cell.empty, Cell.empty, Cell.empty],
   [Cell.empty, Cell.empty, Cell.empty, Cell.empty, Cell.empty]]

/-- A move-phase board (8 pieces): X at (0,1); O at (0,2),(1,0),(1,1),
(1,2),(3,0),(3,2),(4,4). X's only move is (0,1)→(0,0), after which O's
reply (0,2)→(0,1) leaves X with no moves at all. -/
def boardBlocked : Board :=
  [[Cell.empty, Cell.X, Cell.O, Cell.empty, Cell.empty],
   [Cell.O, Cell.O, Cell.O, Cell.empty, Cell.empty],
   [Cell.empty, Cell.empty, Cell.empty, Cell.empty, Cell.empty],
   [Cell.O, Cell.empty, Cell.O, Cell.empty, Cell.empty],
   [Cell.empty, Cell.empty, Cell.empty, Cell.empty, Cell.O]]

/-- A legal-looking drop-phase board: X at (0,0),(0,1),(0,2), O at
(1,0),(1,1),(1,2). -/
def boardThreeThree : Board :=
  [[Cell.X, Cell.X, Cell.X, Cell.empty, Cell.empty],
   [Cell.O, Cell.O, Cell.O, Cell.empty, Cell.empty],
   [Cell.empty, Cell.empty, Cell.empty, Cell.empty, Cell.empty],
   [Cell.empty, Cell.empty, Cell.empty, Cell.empty, Cell.empty],
   [Cell.empty, Cell.empty, Cell.empty, Cell.empty, Cell.empty]]

/-- The empty 5×5 board. -/
def boardEmpty : Board :=
  List.replicate 5 (List.replicate 5 Cell.empty)

/-- A demonstration child list for the selection fold. -/
def demoKids : List (Val × List Coord) :=
  [(vq 1, [(0, 0)]), ((⊥ : Val), [(1, 1)])]

/-- Modelled from the spec (C2's wording, for comparison only): the
per-window "run count" read literally — scanning the window's cells,
count consecutive own-piece occupancy, i.e. the longest run of
consecutive own cells, with 0 if any cell holds the opposing piece. -/
def consecRun (s : Board) (p : Cell) : List Coord → ℕ → ℕ → ℕ
  | [], cur, best => max best cur
  | rc :: rest, cur, best =>
    if getCell s rc.1 rc.2 = p then consecRun s p rest (cur + 1) best
    else consecRun s p rest 0 (max best cur)

/-- Modelled from the spec: a window's count under the consecutive-run
reading. -/
def windowRunCount (s : Board) (p : Cell) (w : List Coord) : ℕ :=
  if w.any (fun rc => decide (getCell s rc.1 rc.2 = other p)) then 0
  else consecRun s p w 0 0

/-- Modelled from the spec: the heuristic as C2 words it, with per-window
consecutive-run counts. -/
def heuristicSpecC2 (s : Board) (me : Cell) : ℚ :=
  ((Lmax (heuristicWindows.map (windowRunCount s me)) : ℚ) -
   (Lmax (heuristicWindows.map (windowRunCount s (other me))) : ℚ)) / 4


/-! ### Generic list lemmas -/

theorem fst_ite {α β : Type} (c : Prop) [Decidable c] (x y : α × β) :
    (if c then x else y).1 = if c then x.1 else y.1 := by
  split <;> rfl

theorem snd_ite {α β : Type} (c : Prop) [Decidable c] (x y : α × β) :
    (if c then x else y).2 = if c then x.2 else y.2 := by
  split <;> rfl

theorem foldl_guard (c : Prop) [Decidable c] (g : ℕ → List Coord → ℕ)
    (w : List Coord) (a : ℕ) :
    ((if c then [w] else []) : List (List Coord)).foldl g a = if c then g a w else a := by
  split <;> rfl

/-- All windows visited by the `heuristic_game_value` double loop, in loop
order. -/

theorem getD_set_self {α : Type} : ∀ (l : List α) (n : ℕ) (x d : α), n < l.length →
    (l.set n x).getD n d = x := by
  intro l
  induction l with
  | nil => intro n x d h; simp at h
  | cons a t ih =>
    intro n x d h
    cases n with
    | zero => rfl
    | succ m => simpa using ih m x d (by simpa using h)

theorem getD_set_ne {α : Type} : ∀ (l : List α) (n m : ℕ) (x d : α), n ≠ m →
    (l.set n x).getD m d = l.getD m d := by
  intro l
  induction l with
  | nil => intro n m x d _; simp
  | cons a t ih =>
    intro n m x d h
    cases n with
    | zero =>
      cases m with
      | zero => exact absurd rfl h
      | succ k => rfl
    | succ j =>
      cases m with
      | zero => rfl
      | succ k => simpa using ih j k x d (fun hh => h (by omega))

theorem getD_mem {α : Type} : ∀ (l : List α) (n : ℕ) (d : α), n < l.length →
    l.getD n d ∈ l := by
  intro l
  induction l with
  | nil => intro n d h; simp at h
  | cons a t ih =>
    intro n d h
    cases n with
    | zero => simp
    | succ m => exact List.mem_cons_of_mem a (ih m d (by simpa using h))

theorem countP_set_add {α : Type} (p : α → Bool) :
    ∀ (l : List α) (n : ℕ) (x : α), n < l.length →
    (l.set n x).countP p + (if p (l.getD n x) then 1 else 0) =
      l.countP p + (if p x then 1 else 0) := by
  intro l
  induction l with
  | nil => intro n x h; simp at h
  | cons a t ih =>
    intro n x h
    cases n with
    | zero => simp [List.countP_cons]; omega
    | succ m =>
      have := ih m x (by simpa using h)
      simp only [List.set_cons_succ, List.countP_cons, List.getD_cons_succ]
      omega

theorem sum_map_set {α : Type} (f : α → ℕ) :
    ∀ (l : List α) (n : ℕ) (x : α), n < l.length →
    ((l.set n x).map f).sum + f (l.getD n x) = (l.map f).sum + f x := by
  intro l
  induction l with
  | nil => intro n x h; simp at h
  | cons a t ih =>
    intro n x h
    cases n with
    | zero => simp; omega
    | succ m =>
      have := ih m x (by simpa using h)
      simp only [List.set_cons_succ, List.map_cons, List.sum_cons, List.getD_cons_succ]
      omega

theorem sum_map_eq_const {α : Type} (f : α → ℕ) (c : ℕ) :
    ∀ (l : List α), (∀ a ∈ l, f a = c) → (l.map f).sum = c * l.length := by
  intro l
  induction l with
  | nil => intro _; simp
  | cons a t ih =>
    intro h
    have ha := h a (List.mem_cons_self a t)
    have ht := ih (fun b hb => h b (List.mem_cons_of_mem a hb))
    simp [ha, ht]; ring

theorem flatMap_if_singleton {α β : Type} (p : α → Prop) [DecidablePred p] (f : α → β) :
    ∀ (l : List α),
    (l.flatMap (fun x => if p x then [f x] else [])) =
      (l.filter (fun x => decide (p x))).map f := by
  intro l
  induction l with
  | nil => rfl
  | cons a t ih =>
    by_cases h : p a <;> simp [List.filter_cons, h, ih]

theorem foldl_pair {α : Type} (f g : ℕ → α → ℕ) :
    ∀ (l : List α) (a b : ℕ),
    l.foldl (fun acc x => (f acc.1 x, g acc.2 x)) (a, b) =
      (l.foldl f a, l.foldl g b) := by
  intro l
  induction l with
  | nil => intro a b; rfl
  | cons x t ih => intro a b; simpa using ih (f a x) (g b x)

theorem le_Lmax : ∀ (l : List ℕ) (x : ℕ), x ∈ l → x ≤ Lmax l := by
  intro l
  induction l with
  | nil => intro x h; simp at h
  | cons a t ih =>
    intro x h
    rcases List.mem_cons.mp h with rfl | h
    · exact le_max_left _ _
    · exact le_trans (ih x h) (le_max_right _ _)

theorem Lmax_le : ∀ (l : List ℕ) (n : ℕ), (∀ x ∈ l, x ≤ n) → Lmax l ≤ n := by
  intro l
  induction l with
  | nil => intro n _; exact Nat.zero_le n
  | cons a t ih =>
    intro n h
    have := h a (List.mem_cons_self a t)
    have := ih n (fun x hx => h x (List.mem_cons_of_mem a hx))
    simp only [Lmax, List.foldr_cons] at *
    omega

theorem Lmax_map_subset {α : Type} (f : α → ℕ) (l1 l2 : List α)
    (h1 : ∀ x ∈ l1, x ∈ l2) (h2 : ∀ x ∈ l2, x ∈ l1) :
    Lmax (l1.map f) = Lmax (l2.map f) := by
  apply le_antisymm
  · apply Lmax_le
    intro x hx
    rcases List.mem_map.mp hx with ⟨a, ha, rfl⟩
    exact le_Lmax _ _ (List.mem_map_of_mem f (h1 a ha))
  · apply Lmax_le
    intro x hx
    rcases List.mem_map.mp hx with ⟨a, ha, rfl⟩
    exact le_Lmax _ _ (List.mem_map_of_mem f (h2 a ha))

theorem foldl_max_eq (f : List Coord → ℕ) :
    ∀ (L : List (List Coord)) (a : ℕ),
    L.foldl (fun x w => max x (f w)) a = max a (Lmax (L.map f)) := by
  intro L
  induction L with
  | nil => intro a; simp [Lmax]
  | cons w t ih =>
    intro a
    simp only [List.foldl_cons, List.map_cons, Lmax, List.foldr_cons, ih]
    rw [show Lmax (t.map f) = List.foldr max 0 (t.map f) from rfl] at *
    omega

theorem foldl_nest {α : Type} (g : ℕ → List Coord → ℕ) (k : α → List (List Coord)) :
    ∀ (l : List α) (a : ℕ),
    l.foldl (fun x ij => (k ij).foldl g x) a = (l.flatMap k).foldl g a := by
  intro l
  induction l with
  | nil => intro a; rfl
  | cons x t ih => intro a; simp [List.foldl_append, ih]

/-! ### Board lemmas -/

theorem set_of_length_le {α : Type} : ∀ (l : List α) (n : ℕ) (x : α),
    l.length ≤ n → l.set n x = l := by
  intro l
  induction l with
  | nil => intro n x _; simp
  | cons a t ih =>
    intro n x h
    cases n with
    | zero => simp at h
    | succ m => simpa using ih m x (by simpa using h)

theorem deepcopy_id (b : Board) : deepcopy b = b := by
  simp [deepcopy]

theorem WF_setCell {b : Board} (h : WF b) (r c : ℕ) (v : Cell) :
    WF (setCell b r c v) := by
  obtain ⟨hlen, hrow⟩ := h
  by_cases hb : r < b.length
  · constructor
    · simpa [setCell] using hlen
    · intro row hr
      rcases List.mem_or_eq_of_mem_set hr with hmem | rfl
      · exact hrow row hmem
      · rw [List.length_set]
        exact hrow _ (getD_mem b r [] hb)
  · unfold setCell
    rw [set_of_length_le _ _ _ (le_of_not_lt hb)]
    exact ⟨hlen, hrow⟩

theorem getCell_setCell_self {b : Board} (h : WF b) {r c : ℕ} (hr : r < 5) (hc : c < 5)
    (v : Cell) : getCell (setCell b r c v) r c = v := by
  obtain ⟨hlen, hrow⟩ := h
  unfold getCell setCell
  rw [getD_set_self _ _ _ _ (by omega)]
  rw [getD_set_self _ _ _ _ ?_]
  rw [hrow _ (getD_mem b r [] (by omega))]
  exact hc

theorem getCell_setCell_ne (b : Board) {r c r' c' : ℕ} (h : (r, c) ≠ (r', c'))
    (v : Cell) : getCell (setCell b r c v) r' c' = getCell b r' c' := by
  unfold getCell setCell
  by_cases hr : r = r'
  · subst hr
    have hc : c ≠ c' := fun hcc => h (by rw [hcc])
    by_cases hb : r < b.length
    · rw [getD_set_self _ _ _ _ (by omega), getD_set_ne _ _ _ _ _ hc]
    · rw [set_of_length_le _ _ _ (le_of_not_lt hb)]
  · rw [getD_set_ne _ _ _ _ _ hr]

theorem getD_irrel {α : Type} : ∀ (l : List α) (n : ℕ) (d d' : α), n < l.length →
    l.getD n d = l.getD n d' := by
  intro l
  induction l with
  | nil => intro n d d' h; simp at h
  | cons a t ih =>
    intro n d d' h
    cases n with
    | zero => rfl
    | succ m => simpa using ih m d d' (by simpa using h)

theorem count_add_count_other {row : List Cell} {me : Cell}
    (hme : me = Cell.X ∨ me = Cell.O) :
    row.count me + row.count (other me) = row.countP isOcc := by
  induction row with
  | nil => rfl
  | cons a t ih =>
    rcases hme with rfl | rfl <;> cases a <;>
      simp [List.count_cons, List.countP_cons, isOcc, other] at * <;> omega

theorem numPieces_eq_countOccupied {s : Board} {me : Cell}
    (hme : me = Cell.X ∨ me = Cell.O) :
    numPieces s me = countOccupied s := by
  unfold numPieces countOccupied
  congr 1
  exact List.map_congr_left (fun row _ => count_add_count_other hme)

theorem mem_allIJ {rc : Coord} : rc ∈ allIJ ↔ rc.1 < 5 ∧ rc.2 < 5 := by
  unfold allIJ
  constructor
  · intro h
    rcases List.mem_flatMap.mp h with ⟨i, hi, hmem⟩
    rcases List.mem_map.mp hmem with ⟨j, hj, rfl⟩
    exact ⟨List.mem_range.mp hi, List.mem_range.mp hj⟩
  · intro ⟨h1, h2⟩
    refine List.mem_flatMap.mpr ⟨rc.1, List.mem_range.mpr h1, ?_⟩
    exact List.mem_map.mpr ⟨rc.2, List.mem_range.mpr h2, rfl⟩

theorem mem_emptyCells {s : Board} {rc : Coord} :
    rc ∈ emptyCells s ↔ rc.1 < 5 ∧ rc.2 < 5 ∧ getCell s rc.1 rc.2 = Cell.empty := by
  unfold emptyCells
  rw [List.mem_filter]
  simp [mem_allIJ, and_assoc]

theorem countOccupied_setCell {s : Board} (hwf : WF s) {r c : ℕ} {v : Cell}
    (hr : r < 5) (hc : c < 5) (he : getCell s r c = Cell.empty)
    (hv : v ≠ Cell.empty) :
    countOccupied (setCell s r c v) = countOccupied s + 1 := by
  obtain ⟨hlen, hrow⟩ := hwf
  have hrl : (s.getD r []).length = 5 := hrow _ (getD_mem s r [] (by omega))
  have hsum := sum_map_set (fun row => row.countP isOcc) s r
    ((s.getD r []).set c v) (by omega)
  have hird : s.getD r ((s.getD r []).set c v) = s.getD r [] :=
    getD_irrel s r _ [] (by omega)
  rw [hird] at hsum
  have hcnt := countP_set_add isOcc (s.getD r []) c v (by omega)
  have hold : (s.getD r []).getD c v = Cell.empty := by
    rw [getD_irrel _ _ _ Cell.empty (by omega)]
    exact he
  rw [hold] at hcnt
  have hvocc : isOcc v = true := by
    cases v <;> simp [isOcc] at hv ⊢
  have h1 : ((s.set r ((s.getD r []).set c v)).map
      (fun row => row.countP isOcc)).sum + (s.getD r []).countP isOcc =
      (s.map (fun row => row.countP isOcc)).sum +
        ((s.getD r []).set c v).countP isOcc := by
    simpa using hsum
  have h2 : ((s.getD r []).set c v).countP isOcc =
      (s.getD r []).countP isOcc + 1 := by
    simpa [show isOcc Cell.empty = false from rfl, hvocc] using hcnt
  show ((s.set r ((s.getD r []).set c v)).map (fun row => row.countP isOcc)).sum =
    (s.map (fun row => row.countP isOcc)).sum + 1
  omega

theorem flatMap_if {α β : Type} (p : α → Prop) [DecidablePred p] (g : α → List β) :
    ∀ (l : List α),
    l.flatMap (fun x => if p x then g x else []) =
      (l.filter (fun x => decide (p x))).flatMap g := by
  intro l
  induction l with
  | nil => rfl
  | cons a t ih =>
    by_cases h : p a <;> simp [List.filter_cons, h, ih]

theorem flatMap_if_eq_filterMap_map {α β γ : Type} (q : α → Prop) [DecidablePred q]
    (n : α → β) (G : β → γ) : ∀ (l : List α),
    l.flatMap (fun x => if q x then [G (n x)] else []) =
      (l.filterMap (fun x => if q x then some (n x) else none)).map G := by
  intro l
  induction l with
  | nil => rfl
  | cons a t ih =>
    by_cases h : q a <;> simp [List.filterMap_cons, h, ih]

theorem genSucc_drop {me : Cell} {s : Board} (p : Cell) (h : numPieces s me < 8) :
    _generate_successors me s p =
      (emptyCells s).map (fun rc => (setCell s rc.1 rc.2 p, [rc])) := by
  unfold _generate_successors
  rw [if_pos h]
  simp only [deepcopy_id]
  exact flatMap_if_singleton _ _ allIJ

theorem genSucc_move {me : Cell} {s : Board} (p : Cell) (h : ¬ numPieces s me < 8) :
    _generate_successors me s p =
      (pieceCells s p).flatMap (fun rc =>
        (kingNeighbors s rc).map (fun rc2 =>
          (setCell (setCell s rc.1 rc.2 Cell.empty) rc2.1 rc2.2 p, [rc2, rc]))) := by
  unfold _generate_successors
  rw [if_neg h]
  simp only [deepcopy_id]
  rw [flatMap_if]
  refine congrArg (List.flatMap (pieceCells s p)) (funext fun rc => ?_)
  exact flatMap_if_eq_filterMap_map
    (fun d : ℤ × ℤ => 0 ≤ (rc.1 : ℤ) + d.1 ∧ (rc.1 : ℤ) + d.1 < 5 ∧
      0 ≤ (rc.2 : ℤ) + d.2 ∧ (rc.2 : ℤ) + d.2 < 5 ∧
      getCell s ((rc.1 : ℤ) + d.1).toNat ((rc.2 : ℤ) + d.2).toNat = Cell.empty)
    (fun d : ℤ × ℤ => (((rc.1 : ℤ) + d.1).toNat, ((rc.2 : ℤ) + d.2).toNat))
    (fun rc2 : Coord => (setCell (setCell s rc.1 rc.2 Cell.empty) rc2.1 rc2.2 p, [rc2, rc]))
    offsets

/-! ### Heuristic characterization -/

theorem hStep_eq (s : Board) (me : Cell) (acc : ℕ × ℕ) (ij : Coord) :
    hStep s me acc ij = (mStep s me acc.1 ij, mStep s (other me) acc.2 ij) := by
  rcases acc with ⟨a, b⟩
  simp only [hStep, mStep, windowsAt, List.foldl_append, foldl_guard,
    fst_ite, snd_ite, _count_line, _count_box]
  split_ifs <;> rfl

theorem foldl_mStep (s : Board) (q : Cell) (l : List Coord) :
    l.foldl (mStep s q) 0 =
      Lmax ((l.flatMap windowsAt).map (fun w => countCells s q w 0)) := by
  have h1 : l.foldl (mStep s q) 0 =
      (l.flatMap windowsAt).foldl (fun x w => max x (countCells s q w 0)) 0 :=
    foldl_nest (fun x w => max x (countCells s q w 0)) windowsAt l 0
  rw [h1, foldl_max_eq]
  exact Nat.zero_max _

theorem heuristic_eq_counts (s : Board) (me : Cell) :
    heuristic_game_value s me =
      ((Lmax (loopWindows.map (fun w => countCells s me w 0)) : ℚ) -
       (Lmax (loopWindows.map (fun w => countCells s (other me) w 0)) : ℚ)) / 4 := by
  unfold heuristic_game_value
  have hfe : hStep s me = fun acc ij => (mStep s me acc.1 ij, mStep s (other me) acc.2 ij) :=
    funext fun acc => funext fun ij => hStep_eq s me acc ij
  rw [hfe, foldl_pair, foldl_mStep, foldl_mStep]
  simp [loopWindows]

theorem countCells_eq_spec {p : Cell} (hp : p = Cell.X ∨ p = Cell.O) (s : Board) :
    ∀ (w : List Coord) (c : ℕ), countCells s p w c =
      if w.any (fun rc => decide (getCell s rc.1 rc.2 = other p)) then 0
      else c + w.countP (fun rc => decide (getCell s rc.1 rc.2 = p)) := by
  intro w
  induction w with
  | nil => intro c; simp [countCells]
  | cons rc rest ih =>
    intro c
    by_cases h1 : getCell s rc.1 rc.2 = p
    · have h2 : getCell s rc.1 rc.2 ≠ other p := by
        rcases hp with rfl | rfl <;> rw [h1] <;> simp [other]
      have hpo : p ≠ other p := by rcases hp with rfl | rfl <;> simp [other]
      have hdec : decide (getCell s rc.1 rc.2 = other p) = false :=
        decide_eq_false (h1 ▸ hpo)
      have hdect : decide (getCell s rc.1 rc.2 = p) = true := decide_eq_true h1
      simp only [countCells, if_pos h1, List.any_cons, List.countP_cons,
        hdec, hdect, Bool.false_or, if_true]
      rw [ih]
      split <;> omega
    · by_cases h3 : getCell s rc.1 rc.2 = Cell.empty
      · have hne : ¬ (Cell.empty = p) := by rcases hp with rfl | rfl <;> simp
        have hne2 : ¬ (Cell.empty = other p) := by
          rcases hp with rfl | rfl <;> simp [other]
        have hdec : decide (getCell s rc.1 rc.2 = other p) = false :=
          decide_eq_false (by rw [h3]; exact hne2)
        have hdecf : decide (getCell s rc.1 rc.2 = p) = false := decide_eq_false h1
        simp [countCells, h3, hne, hdec, hdecf, List.any_cons, List.countP_cons, ih]
        rw [hdec, Bool.false_or]
      · have h2 : getCell s rc.1 rc.2 = other p := by
          rcases hp with rfl | rfl <;>
            rcases hcell : getCell s rc.1 rc.2 <;> simp_all [other]
        have hpo2 : ¬ (other p = p) := by rcases hp with rfl | rfl <;> simp [other]
        have hoe : other p ≠ Cell.empty := by rcases hp with rfl | rfl <;> simp [other]
        simp [countCells, h2, hpo2, hoe, List.any_cons]

theorem countCells_eq_specWindowCount {p : Cell} (hp : p = Cell.X ∨ p = Cell.O)
    (s : Board) (w : List Coord) : countCells s p w 0 = specWindowCount s p w := by
  rw [countCells_eq_spec hp]
  unfold specWindowCount
  split <;> simp

theorem loopWindows_sub : ∀ w ∈ loopWindows, w ∈ heuristicWindows := by decide

theorem heuristicWindows_sub : ∀ w ∈ heuristicWindows, w ∈ loopWindows := by decide

theorem heuristic_eq_spec {me : Cell} (hme : me = Cell.X ∨ me = Cell.O) (s : Board) :
    heuristic_game_value s me =
      ((Lmax (heuristicWindows.map (specWindowCount s me)) : ℚ) -
       (Lmax (heuristicWindows.map (specWindowCount s (other me))) : ℚ)) / 4 := by
  have hop : other me = Cell.X ∨ other me = Cell.O := by
    rcases hme with rfl | rfl
    · exact Or.inr rfl
    · exact Or.inl rfl
  rw [heuristic_eq_counts]
  rw [List.map_congr_left (fun w _ => countCells_eq_specWindowCount hme s w)]
  rw [List.map_congr_left (fun w _ => countCells_eq_specWindowCount hop s w)]
  rw [Lmax_map_subset (specWindowCount s me) loopWindows heuristicWindows
    loopWindows_sub heuristicWindows_sub]
  rw [Lmax_map_subset (specWindowCount s (other me)) loopWindows heuristicWindows
    loopWindows_sub heuristicWindows_sub]

theorem countCells_le (s : Board) (p : Cell) :
    ∀ (w : List Coord) (c : ℕ), countCells s p w c ≤ c + w.length := by
  intro w
  induction w with
  | nil => intro c; simp [countCells]
  | cons rc rest ih =>
    intro c
    simp only [countCells]
    split
    · exact le_trans (ih (c + 1)) (by simp only [List.length_cons]; omega)
    · split
      · omega
      · exact le_trans (ih c) (by simp only [List.length_cons]; omega)

theorem loopWindows_len : ∀ w ∈ loopWindows, w.length = 4 := by decide

theorem heuristic_vals_le (s : Board) (q : Cell) :
    Lmax (loopWindows.map (fun w => countCells s q w 0)) ≤ 4 := by
  apply Lmax_le
  intro x hx
  rcases List.mem_map.mp hx with ⟨w, hw, rfl⟩
  have := countCells_le s q w 0
  rw [loopWindows_len w hw] at this
  omega

theorem heuristic_bounds (s : Board) (me : Cell) :
    -1 ≤ heuristic_game_value s me ∧ heuristic_game_value s me ≤ 1 := by
  rw [heuristic_eq_counts]
  have h1 := heuristic_vals_le s me
  have h2 := heuristic_vals_le s (other me)
  have h1q : (Lmax (loopWindows.map (fun w => countCells s me w 0)) : ℚ) ≤ 4 := by
    exact_mod_cast h1
  have h2q : (Lmax (loopWindows.map (fun w => countCells s (other me) w 0)) : ℚ) ≤ 4 := by
    exact_mod_cast h2
  have h1n : (0 : ℚ) ≤ (Lmax (loopWindows.map (fun w => countCells s me w 0)) : ℚ) := by
    positivity
  have h2n : (0 : ℚ) ≤ (Lmax (loopWindows.map (fun w => countCells s (other me) w 0)) : ℚ) := by
    positivity
  constructor
  · rw [le_div_iff (by norm_num)]
    linarith
  · rw [div_le_one (by norm_num)]
    linarith

/-! ### Minimax: selection-fold lemmas -/

theorem vq_le_vq {x y : ℚ} : vq x ≤ vq y ↔ x ≤ y := by
  simp [vq]

theorem bot_lt_vq (x : ℚ) : (⊥ : Val) < vq x :=
  WithBot.bot_lt_coe _

theorem vq_lt_top (x : ℚ) : vq x < (⊤ : Val) := by
  have : ((⊤ : WithTop ℚ) : Val) = (⊤ : Val) := rfl
  rw [← this]
  exact WithBot.coe_lt_coe.mpr (WithTop.coe_lt_top x)

theorem bestMaxAux_spec :
    ∀ (l : List (Val × List Coord)) (a : Val) (m : Option (List Coord)),
    (l.foldl (fun acc vm => if acc.1 < vm.1 then (vm.1, some vm.2) else acc) (a, m) = (a, m)
      ∧ ∀ vm ∈ l, vm.1 ≤ a) ∨
    (∃ i, ∃ hi : i < l.length,
      l.foldl (fun acc vm => if acc.1 < vm.1 then (vm.1, some vm.2) else acc) (a, m)
        = ((l.get ⟨i, hi⟩).1, some (l.get ⟨i, hi⟩).2)
      ∧ a < (l.get ⟨i, hi⟩).1
      ∧ (∀ j, ∀ hj : j < l.length, j < i → (l.get ⟨j, hj⟩).1 < (l.get ⟨i, hi⟩).1)
      ∧ (∀ j, ∀ hj : j < l.length, (l.get ⟨j, hj⟩).1 ≤ (l.get ⟨i, hi⟩).1)) := by
  intro l
  induction l with
  | nil => intro a m; left; exact ⟨rfl, by simp⟩
  | cons vm rest ih =>
    intro a m
    by_cases hlt : a < vm.1
    · have hstep : ((vm :: rest).foldl
          (fun acc vm => if acc.1 < vm.1 then (vm.1, some vm.2) else acc) (a, m)) =
          rest.foldl (fun acc vm => if acc.1 < vm.1 then (vm.1, some vm.2) else acc)
            (vm.1, some vm.2) := by
        simp [hlt]
      rcases ih vm.1 (some vm.2) with ⟨heq, hle⟩ | ⟨i, hi, heq, hgt, hstrict, hall⟩
      · right
        refine ⟨0, by simp, ?_, ?_, ?_, ?_⟩
        · rw [hstep, heq]
          rfl
        · simpa using hlt
        · intro j hj hji; omega
        · intro j hj
          cases j with
          | zero => simp
          | succ k =>
            simp only [List.get_cons_succ]
            simpa using hle _ (List.get_mem rest k _)
      · right
        refine ⟨i + 1, by simpa using hi, ?_, ?_, ?_, ?_⟩
        · rw [hstep]
          simpa using heq
        · simp only [List.get_cons_succ]
          exact lt_trans hlt hgt
        · intro j hj hji
          cases j with
          | zero => simpa using hgt
          | succ k =>
            simp only [List.get_cons_succ]
            exact hstrict k (by simpa using hj) (by omega)
        · intro j hj
          cases j with
          | zero => simpa using le_of_lt hgt
          | succ k =>
            simp only [List.get_cons_succ]
            exact hall k (by simpa using hj)
    · have hstep : ((vm :: rest).foldl
          (fun acc vm => if acc.1 < vm.1 then (vm.1, some vm.2) else acc) (a, m)) =
          rest.foldl (fun acc vm => if acc.1 < vm.1 then (vm.1, some vm.2) else acc)
            (a, m) := by
        simp [hlt]
      have hvm : vm.1 ≤ a := le_of_not_lt hlt
      rcases ih a m with ⟨heq, hle⟩ | ⟨i, hi, heq, hgt, hstrict, hall⟩
      · left
        refine ⟨by rw [hstep, heq], ?_⟩
        intro x hx
        rcases List.mem_cons.mp hx with rfl | hx
        · exact hvm
        · exact hle x hx
      · right
        refine ⟨i + 1, by simpa using hi, ?_, ?_, ?_, ?_⟩
        · rw [hstep]
          simpa using heq
        · simp only [List.get_cons_succ]
          exact hgt
        · intro j hj hji
          cases j with
          | zero => simpa using lt_of_le_of_lt hvm hgt
          | succ k =>
            simp only [List.get_cons_succ]
            exact hstrict k (by simpa using hj) (by omega)
        · intro j hj
          cases j with
          | zero => simpa using le_trans hvm (le_of_lt hgt)
          | succ k =>
            simp only [List.get_cons_succ]
            exact hall k (by simpa using hj)

theorem bestMinAux_spec :
    ∀ (l : List (Val × List Coord)) (a : Val) (m : Option (List Coord)),
    (l.foldl (fun acc vm => if vm.1 < acc.1 then (vm.1, some vm.2) else acc) (a, m) = (a, m)
      ∧ ∀ vm ∈ l, a ≤ vm.1) ∨
    (∃ i, ∃ hi : i < l.length,
      l.foldl (fun acc vm => if vm.1 < acc.1 then (vm.1, some vm.2) else acc) (a, m)
        = ((l.get ⟨i, hi⟩).1, some (l.get ⟨i, hi⟩).2)
      ∧ (l.get ⟨i, hi⟩).1 < a
      ∧ (∀ j, ∀ hj : j < l.length, j < i → (l.get ⟨i, hi⟩).1 < (l.get ⟨j, hj⟩).1)
      ∧ (∀ j, ∀ hj : j < l.length, (l.get ⟨i, hi⟩).1 ≤ (l.get ⟨j, hj⟩).1)) := by
  intro l
  induction l with
  | nil => intro a m; left; exact ⟨rfl, by simp⟩
  | cons vm rest ih =>
    intro a m
    by_cases hlt : vm.1 < a
    · have hstep : ((vm :: rest).foldl
          (fun acc vm => if vm.1 < acc.1 then (vm.1, some vm.2) else acc) (a, m)) =
          rest.foldl (fun acc vm => if vm.1 < acc.1 then (vm.1, some vm.2) else acc)
            (vm.1, some vm.2) := by
        simp [hlt]
      rcases ih vm.1 (some vm.2) with ⟨heq, hle⟩ | ⟨i, hi, heq, hgt, hstrict, hall⟩
      · right
        refine ⟨0, by simp, ?_, ?_, ?_, ?_⟩
        · rw [hstep, heq]
          rfl
        · simpa using hlt
        · intro j hj hji; omega
        · intro j hj
          cases j with
          | zero => simp
          | succ k =>
            simp only [List.get_cons_succ]
            simpa using hle _ (List.get_mem rest k _)
      · right
        refine ⟨i + 1, by simpa using hi, ?_, ?_, ?_, ?_⟩
        · rw [hstep]
          simpa using heq
        · simp only [List.get_cons_succ]
          exact lt_trans hgt hlt
        · intro j hj hji
          cases j with
          | zero => simpa using hgt
          | succ k =>
            simp only [List.get_cons_succ]
            exact hstrict k (by simpa using hj) (by omega)
        · intro j hj
          cases j with
          | zero => simpa using le_of_lt hgt
          | succ k =>
            simp only [List.get_cons_succ]
            exact hall k (by simpa using hj)
    · have hstep : ((vm :: rest).foldl
          (fun acc vm => if vm.1 < acc.1 then (vm.1, some vm.2) else acc) (a, m)) =
          rest.foldl (fun acc vm => if vm.1 < acc.1 then (vm.1, some vm.2) else acc)
            (a, m) := by
        simp [hlt]
      have hvm : a ≤ vm.1 := le_of_not_lt hlt
      rcases ih a m with ⟨heq, hle⟩ | ⟨i, hi, heq, hgt, hstrict, hall⟩
      · left
        refine ⟨by rw [hstep, heq], ?_⟩
        intro x hx
        rcases List.mem_cons.mp hx with rfl | hx
        · exact hvm
        · exact hle x hx
      · right
        refine ⟨i + 1, by simpa using hi, ?_, ?_, ?_, ?_⟩
        · rw [hstep]
          simpa using heq
        · simp only [List.get_cons_succ]
          exact hgt
        · intro j hj hji
          cases j with
          | zero => simpa using lt_of_lt_of_le hgt hvm
          | succ k =>
            simp only [List.get_cons_succ]
            exact hstrict k (by simpa using hj) (by omega)
        · intro j hj
          cases j with
          | zero => simpa using le_trans (le_of_lt hgt) hvm
          | succ k =>
            simp only [List.get_cons_succ]
            exact hall k (by simpa using hj)

theorem bestMax_le (l : List (Val × List Coord)) (x : Val)
    (hx : (⊥ : Val) ≤ x) (h : ∀ vm ∈ l, vm.1 ≤ x) : (bestMax l).1 ≤ x := by
  unfold bestMax
  rcases bestMaxAux_spec l ⊥ none with ⟨heq, _⟩ | ⟨i, hi, heq, _, _, _⟩
  · rw [heq]; exact hx
  · rw [heq]; exact h _ (List.get_mem l i hi)

theorem bestMin_le_of_mem (l : List (Val × List Coord)) (vm : Val × List Coord)
    (h : vm ∈ l) : (bestMin l).1 ≤ vm.1 := by
  unfold bestMin
  rcases bestMinAux_spec l ⊤ none with ⟨heq, hle⟩ | ⟨i, hi, heq, _, _, hall⟩
  · rw [heq]
    exact hle vm h
  · rw [heq]
    rcases List.mem_iff_get.mp h with ⟨⟨j, hj⟩, rfl⟩
    exact hall j hj

/-! ### Minimax: unfolding equations and value bound -/

theorem game_value_cases (me : Cell) (s : Board) :
    game_value me s = 0 ∨ game_value me s = 1 ∨ game_value me s = -1 := by
  unfold game_value
  cases h : findWinner s with
  | none => left; simp [h]
  | some p =>
    right
    by_cases hp : p = me
    · left; simp [h, hp]
    · right; simp [h, hp]

theorem minimaxAux_terminal (me : Cell) (f : ℕ) (s : Board) (im : Bool)
    (h : game_value me s ≠ 0) :
    minimaxAux me f s im = (vq (game_value me s : ℚ), none) := by
  cases f <;> simp [minimaxAux, h]

theorem minimaxAux_cutoff (me : Cell) (s : Board) (im : Bool)
    (h : game_value me s = 0) :
    minimaxAux me 0 s im = (vq (heuristic_game_value s me), none) := by
  simp [minimaxAux, h]

theorem minimaxAux_step_max (me : Cell) (f : ℕ) (s : Board)
    (h : game_value me s = 0) :
    minimaxAux me (f + 1) s true =
      bestMax ((_generate_successors me s me).map
        (fun sm => ((minimaxAux me f sm.1 false).1, sm.2))) := by
  simp [minimaxAux, h, bestMax]

theorem minimaxAux_step_min (me : Cell) (f : ℕ) (s : Board)
    (h : game_value me s = 0) :
    minimaxAux me (f + 1) s false =
      bestMin ((_generate_successors me s (other me)).map
        (fun sm => ((minimaxAux me f sm.1 true).1, sm.2))) := by
  simp [minimaxAux, h, bestMin]

theorem WF_of_mem_succ {me : Cell} {s : Board} {p : Cell} (hwf : WF s) :
    ∀ sm ∈ _generate_successors me s p, WF sm.1 := by
  intro sm hsm
  by_cases h : numPieces s me < 8
  · rw [genSucc_drop p h] at hsm
    rcases List.mem_map.mp hsm with ⟨rc, _, rfl⟩
    exact WF_setCell hwf _ _ _
  · rw [genSucc_move p h] at hsm
    rcases List.mem_flatMap.mp hsm with ⟨rc, _, hmem⟩
    rcases List.mem_map.mp hmem with ⟨rc2, _, rfl⟩
    exact WF_setCell (WF_setCell hwf _ _ _) _ _ _

theorem getD_eq_get {α : Type} : ∀ (l : List α) (i : ℕ) (d : α) (h : i < l.length),
    l.getD i d = l.get ⟨i, h⟩ := by
  intro l
  induction l with
  | nil => intro i d h; simp at h
  | cons a t ih =>
    intro i d h
    cases i with
    | zero => rfl
    | succ m => simpa using ih m d (by simpa using h)

theorem isOcc_of_ne_empty {a : Cell} (h : a ≠ Cell.empty) : isOcc a = true := by
  cases a <;> simp [isOcc] at h ⊢

theorem emptyCells_ne_nil {s : Board} (hwf : WF s) (h : countOccupied s < 25) :
    emptyCells s ≠ [] := by
  intro hnil
  have hall : ∀ rc ∈ allIJ, ¬ (getCell s rc.1 rc.2 = Cell.empty) := by
    intro rc hrc hempty
    have : rc ∈ emptyCells s := by
      unfold emptyCells
      exact List.mem_filter.mpr ⟨hrc, by simpa using hempty⟩
    rw [hnil] at this
    simp at this
  have hrows : ∀ row ∈ s, row.countP isOcc = 5 := by
    intro row hrow_mem
    rcases List.mem_iff_get.mp hrow_mem with ⟨⟨i, hi⟩, rfl⟩
    rw [List.countP_eq_length.mpr, hwf.2 _ hrow_mem]
    intro a ha
    rcases List.mem_iff_get.mp ha with ⟨⟨j, hj⟩, rfl⟩
    apply isOcc_of_ne_empty
    have hgc : getCell s i j = (s.get ⟨i, hi⟩).get ⟨j, hj⟩ := by
      unfold getCell
      rw [getD_eq_get s i [] hi, getD_eq_get _ j Cell.empty hj]
    have hij : ((i, j) : Coord) ∈ allIJ := by
      apply mem_allIJ.mpr
      constructor
      · simpa [hwf.1] using hi
      · have := hwf.2 _ hrow_mem
        omega
    intro hcontra
    exact hall (i, j) hij (by rw [hgc]; exact hcontra)
  have : countOccupied s = 25 := by
    unfold countOccupied
    rw [sum_map_eq_const _ 5 s hrows, hwf.1]
  omega

theorem minimax_le_one {me : Cell} (hme : me = Cell.X ∨ me = Cell.O) :
    ∀ f : ℕ, ∀ s : Board, WF s →
    ((∀ d, d < f → d % 2 = 1 → countOccupied s + d < 8) →
      (minimaxAux me f s true).1 ≤ vq 1) ∧
    ((∀ d, d < f → d % 2 = 0 → countOccupied s + d < 8) →
      (minimaxAux me f s false).1 ≤ vq 1) := by
  have hmene : me ≠ Cell.empty := by rcases hme with rfl | rfl <;> simp
  have hopne : other me ≠ Cell.empty := by rcases hme with rfl | rfl <;> simp [other]
  have hterm : ∀ f s im, game_value me s ≠ 0 → (minimaxAux me f s im).1 ≤ vq 1 := by
    intro f s im h
    rw [minimaxAux_terminal me f s im h]
    rcases game_value_cases me s with h0 | h1 | h2
    · exact absurd h0 h
    · rw [h1]
      exact le_of_eq (by norm_num)
    · rw [h2]
      show vq ((-1 : ℤ) : ℚ) ≤ vq 1
      exact vq_le_vq.mpr (by norm_num)
  have hbase : ∀ s im, (minimaxAux me 0 s im).1 ≤ vq 1 := by
    intro s im
    by_cases hgv : game_value me s = 0
    · rw [minimaxAux_cutoff me s im hgv]
      exact vq_le_vq.mpr (heuristic_bounds s me).2
    · exact hterm 0 s im hgv
  intro f
  induction f with
  | zero =>
    intro s _
    exact ⟨fun _ => hbase s true, fun _ => hbase s false⟩
  | succ f ih =>
    intro s hwf
    constructor
    · intro hcond
      by_cases hgv : game_value me s = 0
      · rw [minimaxAux_step_max me f s hgv]
        apply bestMax_le _ _ bot_le
        intro vm hvm
        rcases List.mem_map.mp hvm with ⟨sm, hsm, rfl⟩
        show (minimaxAux me f sm.1 false).1 ≤ vq 1
        have hwf2 : WF sm.1 := WF_of_mem_succ hwf sm hsm
        apply (ih sm.1 hwf2).2
        intro d hd hpar
        have hdrop : countOccupied s + 1 < 8 := hcond 1 (by omega) (by norm_num)
        have hdropn : numPieces s me < 8 := by
          rw [numPieces_eq_countOccupied hme]; omega
        have hsm2 : sm ∈ (emptyCells s).map
            (fun rc => (setCell s rc.1 rc.2 me, ([rc] : List Coord))) := by
          rw [← genSucc_drop me hdropn]; exact hsm
        rcases List.mem_map.mp hsm2 with ⟨rc, hrc, heqq⟩
        have hcnt : countOccupied sm.1 = countOccupied s + 1 := by
          rw [← heqq]
          rcases mem_emptyCells.mp hrc with ⟨hr5, hc5, hemp⟩
          exact countOccupied_setCell hwf hr5 hc5 hemp hmene
        rw [hcnt]
        have := hcond (d + 1) (by omega) (by omega)
        omega
      · exact hterm (f + 1) s true hgv
    · intro hcond
      by_cases hgv : game_value me s = 0
      · rw [minimaxAux_step_min me f s hgv]
        have hd0 : countOccupied s + 0 < 8 := hcond 0 (by omega) (by norm_num)
        have hdropn : numPieces s me < 8 := by
          rw [numPieces_eq_countOccupied hme]; omega
        have hnn : emptyCells s ≠ [] := emptyCells_ne_nil hwf (by omega)
        rcases hec : emptyCells s with _ | ⟨rc, rest⟩
        · exact absurd hec hnn
        · have hsucc := genSucc_drop (other me) hdropn
          rw [hsucc, hec]
          simp only [List.map_cons]
          have hrc : rc ∈ emptyCells s := by
            rw [hec]; exact List.mem_cons_self _ _
          have hwf2 : WF (setCell s rc.1 rc.2 (other me)) := WF_setCell hwf _ _ _
          have hv0 : (minimaxAux me f (setCell s rc.1 rc.2 (other me)) true).1 ≤ vq 1 := by
            apply (ih _ hwf2).1
            intro d hd hpar
            have hcnt : countOccupied (setCell s rc.1 rc.2 (other me)) =
                countOccupied s + 1 := by
              rcases mem_emptyCells.mp hrc with ⟨hr5, hc5, hemp⟩
              exact countOccupied_setCell hwf hr5 hc5 hemp hopne
            rw [hcnt]
            have := hcond (d + 1) (by omega) (by omega)
            omega
          exact le_trans (bestMin_le_of_mem _ _ (List.mem_cons_self _ _)) hv0
      · exact hterm (f + 1) s false hgv

theorem bestMaxAux_stay :
    ∀ (rest : List (Val × List Coord)) (a : Val) (m : Option (List Coord)),
    (∀ vm ∈ rest, vm.1 ≤ a) →
    rest.foldl (fun acc vm => if acc.1 < vm.1 then (vm.1, some vm.2) else acc) (a, m)
      = (a, m) := by
  intro rest
  induction rest with
  | nil => intro a m _; rfl
  | cons vm t ih =>
    intro a m h
    have hvm : ¬ a < vm.1 := not_lt_of_le (h vm (List.mem_cons_self _ _))
    simp only [List.foldl_cons, hvm, if_false]
    exact ih a m (fun x hx => h x (List.mem_cons_of_mem _ hx))

theorem bestMax_head_strict (v : Val) (m : List Coord)
    (rest : List (Val × List Coord)) (hv : (⊥ : Val) < v)
    (hrest : ∀ vm ∈ rest, vm.1 ≤ v) :
    bestMax ((v, m) :: rest) = (v, some m) := by
  unfold bestMax
  simp only [List.foldl_cons, hv, if_true]
  exact bestMaxAux_stay rest v (some m) hrest

/-- C1 (amended): in the drop phase, if the agent holds (0,0), (0,1), (0,2),
cell (0,3) is empty, no winning pattern is present, and every minimizing
level of the search still lies in the drop phase (piece count n satisfies
n + d < 8 for each odd depth d < D), then `make_move` with any depth D ≥ 1
returns the single-coordinate move [(0,3)] completing the horizontal
four-in-a-row. -/
theorem c1_make_move_completes_row (me : Cell) (hme : me = Cell.X ∨ me = Cell.O)
    (D : ℕ) (hD : 1 ≤ D) (s : Board) (hwf : WF s)
    (h00 : getCell s 0 0 = me) (h01 : getCell s 0 1 = me) (h02 : getCell s 0 2 = me)
    (h03 : getCell s 0 3 = Cell.empty)
    (hterm : findWinner s = none)
    (hdrop : countOccupied s < 8)
    (hmin : ∀ d, d < D → d % 2 = 1 → countOccupied s + d < 8)
    (pick : ℕ) :
    make_move me D s pick = [(0, 3)] := by
  obtain ⟨k, rfl⟩ : ∃ k, D = k + 1 := ⟨D - 1, by omega⟩
  have hmene : me ≠ Cell.empty := by rcases hme with rfl | rfl <;> simp
  have hgv : game_value me s = 0 := by simp [game_value, hterm]
  have hdropn : numPieces s me < 8 := by
    rw [numPieces_eq_countOccupied hme]; omega
  have hsplit : allIJ = (0, 0) :: (0, 1) :: (0, 2) :: (0, 3) :: List.drop 4 allIJ := by rfl
  have h00d : decide (getCell s 0 0 = Cell.empty) = false :=
    decide_eq_false (by rw [h00]; exact hmene)
  have h01d : decide (getCell s 0 1 = Cell.empty) = false :=
    decide_eq_false (by rw [h01]; exact hmene)
  have h02d : decide (getCell s 0 2 = Cell.empty) = false :=
    decide_eq_false (by rw [h02]; exact hmene)
  have h03d : decide (getCell s 0 3 = Cell.empty) = true := decide_eq_true h03
  have hec : emptyCells s = (0, 3) ::
      (List.drop 4 allIJ).filter (fun rc => decide (getCell s rc.1 rc.2 = Cell.empty)) := by
    unfold emptyCells
    rw [hsplit]
    simp [List.filter_cons, h00d, h01d, h02d, h03d]
  have g0 : getCell (setCell s 0 3 me) 0 0 = me := by
    rw [getCell_setCell_ne s (by decide) me]; exact h00
  have g1 : getCell (setCell s 0 3 me) 0 1 = me := by
    rw [getCell_setCell_ne s (by decide) me]; exact h01
  have g2 : getCell (setCell s 0 3 me) 0 2 = me := by
    rw [getCell_setCell_ne s (by decide) me]; exact h02
  have g3 : getCell (setCell s 0 3 me) 0 3 = me :=
    getCell_setCell_self hwf (by norm_num) (by norm_num) me
  have hw : findWinner (setCell s 0 3 me) = some me := by
    have hgw : gvWindows = [(0, 0), (0, 1), (0, 2), (0, 3)] :: List.drop 1 gvWindows := by rfl
    show firstWin (setCell s 0 3 me) gvWindows = some me
    rw [hgw]
    have hwa : winAt (setCell s 0 3 me) [(0, 0), (0, 1), (0, 2), (0, 3)] = some me := by
      show (if (getCell (setCell s 0 3 me) 0 0 ≠ Cell.empty ∧
          ∀ rc2 ∈ ([(0, 1), (0, 2), (0, 3)] : List Coord),
            getCell (setCell s 0 3 me) rc2.1 rc2.2 = getCell (setCell s 0 3 me) 0 0)
        then some (getCell (setCell s 0 3 me) 0 0) else none) = some me
      rw [if_pos, g0]
      refine ⟨by rw [g0]; exact hmene, ?_⟩
      intro rc2 hrc2
      rw [g0]
      simp only [List.mem_cons, List.not_mem_nil, or_false] at hrc2
      rcases hrc2 with rfl | rfl | rfl
      · exact g1
      · exact g2
      · exact g3
    show (match winAt (setCell s 0 3 me) [(0, 0), (0, 1), (0, 2), (0, 3)] with
      | some p => some p
      | none => firstWin (setCell s 0 3 me) (List.drop 1 gvWindows)) = some me
    rw [hwa]
  have hgv3 : game_value me (setCell s 0 3 me) = 1 := by
    simp [game_value, hw]
  have hchild : (minimaxAux me k (setCell s 0 3 me) false).1 = vq 1 := by
    rw [minimaxAux_terminal me k _ false (by rw [hgv3]; norm_num), hgv3]
    norm_num
  have hrest : ∀ vm ∈ ((List.drop 4 allIJ).filter
      (fun rc => decide (getCell s rc.1 rc.2 = Cell.empty))).map
        (fun rc => ((minimaxAux me k (setCell s rc.1 rc.2 me) false).1, ([rc] : List Coord))),
      vm.1 ≤ vq 1 := by
    intro vm hvm
    rcases List.mem_map.mp hvm with ⟨rc, hrcf, rfl⟩
    have hrcmem : rc ∈ emptyCells s := by
      rcases List.mem_filter.mp hrcf with ⟨hdrop4, hdec⟩
      unfold emptyCells
      exact List.mem_filter.mpr ⟨List.mem_of_mem_drop hdrop4, hdec⟩
    rcases mem_emptyCells.mp hrcmem with ⟨hr5, hc5, hemp⟩
    show (minimaxAux me k (setCell s rc.1 rc.2 me) false).1 ≤ vq 1
    apply (minimax_le_one hme k _ (WF_setCell hwf _ _ _)).2
    intro d hd hpar
    rw [countOccupied_setCell hwf hr5 hc5 hemp hmene]
    have := hmin (d + 1) (by omega) (by omega)
    omega
  have hroot : minimaxAux me (k + 1) s true = (vq 1, some [(0, 3)]) := by
    rw [minimaxAux_step_max me k s hgv, genSucc_drop me hdropn, hec,
      List.map_map, List.map_cons]
    show bestMax (((minimaxAux me k (setCell s 0 3 me) false).1, [(0, 3)]) :: _) = _
    rw [hchild]
    exact bestMax_head_strict (vq 1) [(0, 3)] _ (bot_lt_vq 1) hrest
  simp only [make_move, make_move_tr, deepcopy_id, hroot]

/-- C4: at every depth d ≤ D, a terminal board short-circuits `_minimax`:
it returns the signed terminal value (+1 when the winning piece is the
agent's, −1 otherwise) and no move, regardless of the depth cutoff; a
non-terminal board returns the heuristic score (relative to the agent's
piece) and no move exactly at d = D, and otherwise recurses into the
min/max fold over successors. -/
theorem c4_minimax_terminal_override (me : Cell) (D d : ℕ) (s : Board) (im : Bool)
    (hd : d ≤ D) :
    (∀ p, findWinner s = some p →
      _minimax me D s d im = (vq (if p = me then 1 else -1), none)) ∧
    (findWinner s = none → d = D →
      _minimax me D s d im = (vq (heuristic_game_value s me), none)) ∧
    (findWinner s = none → d < D →
      _minimax me D s d im =
        (if im then
          bestMax ((_generate_successors me s me).map
            (fun sm => ((minimaxAux me (D - d - 1) sm.1 false).1, sm.2)))
        else
          bestMin ((_generate_successors me s (other me)).map
            (fun sm => ((minimaxAux me (D - d - 1) sm.1 true).1, sm.2))))) := by
  refine ⟨?_, ?_, ?_⟩
  · intro p hp
    have hgv : game_value me s = if p = me then 1 else -1 := by
      simp [game_value, hp]
    have hne : game_value me s ≠ 0 := by
      rw [hgv]; split <;> norm_num
    unfold _minimax
    rw [minimaxAux_terminal me _ s im hne, hgv]
    split <;> norm_num [vq]
  · intro hn hdD
    have hgv : game_value me s = 0 := by simp [game_value, hn]
    unfold _minimax
    rw [hdD, Nat.sub_self]
    exact minimaxAux_cutoff me s im hgv
  · intro hn hlt
    have hgv : game_value me s = 0 := by simp [game_value, hn]
    unfold _minimax
    have hfe : D - d = (D - d - 1) + 1 := by omega
    rw [hfe]
    cases im
    · simpa using minimaxAux_step_min me (D - d - 1) s hgv
    · simpa using minimaxAux_step_max me (D - d - 1) s hgv

/-- C7: the generator derives the phase from the total piece count
(`numPieces` counts both piece values, i.e. all occupied cells): below 8 it
emits one drop per empty cell in row-major order, destination-only
descriptor; otherwise one relocation per (own piece, in-bounds empty
king-move neighbour) pair in row-major/offset order, descriptor listing
destination then source. -/
theorem c7_generate_successors_spec (me : Cell) (s : Board) (p : Cell) :
    ((me = Cell.X ∨ me = Cell.O) → numPieces s me = countOccupied s) ∧
    (numPieces s me < 8 →
      _generate_successors me s p =
        (emptyCells s).map (fun rc => (setCell s rc.1 rc.2 p, [rc]))) ∧
    (¬ numPieces s me < 8 →
      _generate_successors me s p =
        (pieceCells s p).flatMap (fun rc =>
          (kingNeighbors s rc).map (fun rc2 =>
            (setCell (setCell s rc.1 rc.2 Cell.empty) rc2.1 rc2.2 p, [rc2, rc])))) :=
  ⟨fun hme => numPieces_eq_countOccupied hme,
   fun h => genSucc_drop p h,
   fun h => genSucc_move p h⟩

/-- C9: `make_move` never mutates the board passed to it: threading the
`state` argument through the call (`make_move_tr`) returns it unchanged,
the search operating only on the `deepcopy` (which has equal cell
contents). -/
theorem c9_make_move_frame (me : Cell) (D : ℕ) (s : Board) (pick : ℕ) :
    (make_move_tr me D s pick).2 = s ∧ deepcopy s = s ∧
    make_move me D s pick = (make_move_tr me D s pick).1 := by
  refine ⟨?_, deepcopy_id s, rfl⟩
  unfold make_move_tr
  cases h : (minimaxAux me D (deepcopy s) true).2 <;> simp [h]
  split <;> rfl

/-- C10: any 2-coordinate move accepted by `opponent_move` has distinct
source and destination (the destination is Empty while the source holds
the opponent's piece), so the missing zero-delta sub-check of the
adjacency test is unreachable. -/
theorem c10_no_null_relocation (b : Board) (opp : Cell)
    (hopp : opp = Cell.X ∨ opp = Cell.O) (move : List (ℤ × ℤ)) (b2 : Board)
    (hlen : move.length = 2)
    (hok : opponent_move b opp move = Except.ok b2) :
    move.getD 0 (0, 0) ≠ move.getD 1 (0, 0) := by
  simp only [opponent_move] at hok
  split_ifs at hok with h1 h2 h3 h4 h5 h6 h7
  · -- success branch of the 2-coordinate path
    intro heq
    push_neg at h3 h6
    rw [heq] at h3
    rw [h6] at h3
    rcases hopp with rfl | rfl <;> simp at h3
  · -- the 1-coordinate success branch contradicts hlen
    omega

/-- C6: `opponent_move` checks its validation conditions in source order —
coordinate count, destination bounds, destination emptiness, then for
relocations source bounds, source ownership and king-move adjacency — and
reports a distinct error for the first failing one, mutating the board via
`place_piece` only when all checks pass (the error result carries no
mutation: the exception is raised before `place_piece` runs). -/
theorem c6_opponent_move_checks (b : Board) (opp : Cell) (move : List (ℤ × ℤ)) :
    (¬ (1 ≤ move.length ∧ move.length ≤ 2) →
      opponent_move b opp move = Except.error VErr.malformedMove) ∧
    ((1 ≤ move.length ∧ move.length ≤ 2) →
     ¬ (0 ≤ (move.getD 0 (0, 0)).1 ∧ (move.getD 0 (0, 0)).1 < 5 ∧
        0 ≤ (move.getD 0 (0, 0)).2 ∧ (move.getD 0 (0, 0)).2 < 5) →
      opponent_move b opp move = Except.error VErr.destOutOfBounds) ∧
    ((1 ≤ move.length ∧ move.length ≤ 2) →
     (0 ≤ (move.getD 0 (0, 0)).1 ∧ (move.getD 0 (0, 0)).1 < 5 ∧
      0 ≤ (move.getD 0 (0, 0)).2 ∧ (move.getD 0 (0, 0)).2 < 5) →
     getCell b (move.getD 0 (0, 0)).1.toNat (move.getD 0 (0, 0)).2.toNat ≠ Cell.empty →
      opponent_move b opp move = Except.error VErr.destOccupied) ∧
    ((1 ≤ move.length ∧ move.length ≤ 2) →
     (0 ≤ (move.getD 0 (0, 0)).1 ∧ (move.getD 0 (0, 0)).1 < 5 ∧
      0 ≤ (move.getD 0 (0, 0)).2 ∧ (move.getD 0 (0, 0)).2 < 5) →
     getCell b (move.getD 0 (0, 0)).1.toNat (move.getD 0 (0, 0)).2.toNat = Cell.empty →
     1 < move.length →
     ¬ (0 ≤ (move.getD 1 (0, 0)).1 ∧ (move.getD 1 (0, 0)).1 < 5 ∧
        0 ≤ (move.getD 1 (0, 0)).2 ∧ (move.getD 1 (0, 0)).2 < 5) →
      opponent_move b opp move = Except.error VErr.srcOutOfBounds) ∧
    ((1 ≤ move.length ∧ move.length ≤ 2) →
     (0 ≤ (move.getD 0 (0, 0)).1 ∧ (move.getD 0 (0, 0)).1 < 5 ∧
      0 ≤ (move.getD 0 (0, 0)).2 ∧ (move.getD 0 (0, 0)).2 < 5) →
     getCell b (move.getD 0 (0, 0)).1.toNat (move.getD 0 (0, 0)).2.toNat = Cell.empty →
     1 < move.length →
     (0 ≤ (move.getD 1 (0, 0)).1 ∧ (move.getD 1 (0, 0)).1 < 5 ∧
      0 ≤ (move.getD 1 (0, 0)).2 ∧ (move.getD 1 (0, 0)).2 < 5) →
     getCell b (move.getD 1 (0, 0)).1.toNat (move.getD 1 (0, 0)).2.toNat ≠ opp →
      opponent_move b opp move = Except.error VErr.srcNotOwned) ∧
    ((1 ≤ move.length ∧ move.length ≤ 2) →
     (0 ≤ (move.getD 0 (0, 0)).1 ∧ (move.getD 0 (0, 0)).1 < 5 ∧
      0 ≤ (move.getD 0 (0, 0)).2 ∧ (move.getD 0 (0, 0)).2 < 5) →
     getCell b (move.getD 0 (0, 0)).1.toNat (move.getD 0 (0, 0)).2.toNat = Cell.empty →
     1 < move.length →
     (0 ≤ (move.getD 1 (0, 0)).1 ∧ (move.getD 1 (0, 0)).1 < 5 ∧
      0 ≤ (move.getD 1 (0, 0)).2 ∧ (move.getD 1 (0, 0)).2 < 5) →
     getCell b (move.getD 1 (0, 0)).1.toNat (move.getD 1 (0, 0)).2.toNat = opp →
     (1 < ((move.getD 1 (0, 0)).1 - (move.getD 0 (0, 0)).1).natAbs ∨
      1 < ((move.getD 1 (0, 0)).2 - (move.getD 0 (0, 0)).2).natAbs) →
      opponent_move b opp move = Except.error VErr.nonAdjacent) ∧
    ((1 ≤ move.length ∧ move.length ≤ 2) →
     (0 ≤ (move.getD 0 (0, 0)).1 ∧ (move.getD 0 (0, 0)).1 < 5 ∧
      0 ≤ (move.getD 0 (0, 0)).2 ∧ (move.getD 0 (0, 0)).2 < 5) →
     getCell b (move.getD 0 (0, 0)).1.toNat (move.getD 0 (0, 0)).2.toNat = Cell.empty →
     1 < move.length →
     (0 ≤ (move.getD 1 (0, 0)).1 ∧ (move.getD 1 (0, 0)).1 < 5 ∧
      0 ≤ (move.getD 1 (0, 0)).2 ∧ (move.getD 1 (0, 0)).2 < 5) →
     getCell b (move.getD 1 (0, 0)).1.toNat (move.getD 1 (0, 0)).2.toNat = opp →
     ¬ (1 < ((move.getD 1 (0, 0)).1 - (move.getD 0 (0, 0)).1).natAbs ∨
        1 < ((move.getD 1 (0, 0)).2 - (move.getD 0 (0, 0)).2).natAbs) →
      opponent_move b opp move = Except.ok (place_piece b move opp)) ∧
    ((1 ≤ move.length ∧ move.length ≤ 2) →
     (0 ≤ (move.getD 0 (0, 0)).1 ∧ (move.getD 0 (0, 0)).1 < 5 ∧
      0 ≤ (move.getD 0 (0, 0)).2 ∧ (move.getD 0 (0, 0)).2 < 5) →
     getCell b (move.getD 0 (0, 0)).1.toNat (move.getD 0 (0, 0)).2.toNat = Cell.empty →
     ¬ 1 < move.length →
      opponent_move b opp move = Except.ok (place_piece b move opp)) := by
  refine ⟨?_, ?_, ?_, ?_, ?_, ?_, ?_, ?_⟩
  · intro h1
    simp only [opponent_move]
    rw [if_pos h1]
  · intro h1 h2
    simp only [opponent_move]
    rw [if_neg (not_not_intro h1), if_pos h2]
  · intro h1 h2 h3
    simp only [opponent_move]
    rw [if_neg (not_not_intro h1), if_neg (not_not_intro h2), if_pos h3]
  · intro h1 h2 h3 h4 h5
    simp only [opponent_move]
    rw [if_neg (not_not_intro h1), if_neg (not_not_intro h2),
      if_neg (fun hne => hne h3), if_pos h4, if_pos h5]
  · intro h1 h2 h3 h4 h5 h6
    simp only [opponent_move]
    rw [if_neg (not_not_intro h1), if_neg (not_not_intro h2),
      if_neg (fun hne => hne h3), if_pos h4, if_neg (not_not_intro h5), if_pos h6]
  · intro h1 h2 h3 h4 h5 h6 h7
    simp only [opponent_move]
    rw [if_neg (not_not_intro h1), if_neg (not_not_intro h2),
      if_neg (fun hne => hne h3), if_pos h4, if_neg (not_not_intro h5),
      if_neg (fun hne => hne h6), if_pos h7]
  · intro h1 h2 h3 h4 h5 h6 h7
    simp only [opponent_move]
    rw [if_neg (not_not_intro h1), if_neg (not_not_intro h2),
      if_neg (fun hne => hne h3), if_pos h4, if_neg (not_not_intro h5),
      if_neg (fun hne => hne h6), if_neg h7]
  · intro h1 h2 h3 h4
    simp only [opponent_move]
    rw [if_neg (not_not_intro h1), if_neg (not_not_intro h2),
      if_neg (fun hne => hne h3), if_neg h4]

/-- C8: on boards the terminal detector scores as no-winner, the heuristic
is exact rational arithmetic: an integer difference in [-4, 4] divided by
4, hence bounded within [-1, 1]. -/
theorem c8_heuristic_bounded (s : Board) (me : Cell) (hterm : findWinner s = none) :
    -1 ≤ heuristic_game_value s me ∧ heuristic_game_value s me ≤ 1 ∧
    ∃ k : ℤ, -4 ≤ k ∧ k ≤ 4 ∧ heuristic_game_value s me = (k : ℚ) / 4 := by
  obtain ⟨hl, hr⟩ := heuristic_bounds s me
  refine ⟨hl, hr, ?_⟩
  rw [heuristic_eq_counts]
  refine ⟨(Lmax (loopWindows.map (fun w => countCells s me w 0)) : ℤ) -
      (Lmax (loopWindows.map (fun w => countCells s (other me) w 0)) : ℤ), ?_, ?_, ?_⟩
  · have h2 := heuristic_vals_le s (other me)
    omega
  · have h1 := heuristic_vals_le s me
    omega
  · push_cast
    ring

/-- C2 (amended): for every non-terminal board, the heuristic equals
`(best_own − best_opponent) / 4` where each side's best count is the
maximum over every window of the five pattern families of the number of
own pieces anywhere in the window — not the longest consecutive run —
with a window counting 0 as soon as it contains an opposing piece. -/
theorem c2_heuristic_window_counts (s : Board) (me : Cell)
    (hme : me = Cell.X ∨ me = Cell.O) (hterm : findWinner s = none) :
    heuristic_game_value s me =
      ((Lmax (heuristicWindows.map (specWindowCount s me)) : ℚ) -
       (Lmax (heuristicWindows.map (specWindowCount s (other me))) : ℚ)) / 4 :=
  heuristic_eq_spec hme s

/-- C3 (amended): `make_move` is deterministic — independent of the random
source modelled by `pick` — whenever the minimax search itself returns a
move; the `random.choice` fallback (reached e.g. on already-terminal
boards, where `_minimax` returns no move) is excluded. -/
theorem c3_make_move_deterministic (me : Cell) (D : ℕ) (s : Board) (p1 p2 : ℕ)
    (h : (minimaxAux me D (deepcopy s) true).2 ≠ none) :
    make_move me D s p1 = make_move me D s p2 := by
  simp only [make_move, make_move_tr]
  cases hm : (minimaxAux me D (deepcopy s) true).2 with
  | none => exact absurd hm h
  | some m => simp [hm]

/-- C5 (amended): an internal minimax node folds its successor values with
`bestMax` / `bestMin`, and that fold returns the first successor whose
value is a strict improvement over every earlier one (first-wins
tie-break) — provided at least one successor value exceeds the `-inf`
start (maximizing), dually lies below `+inf` (minimizing); when every
child value equals the sentinel, the fold keeps no move at all. -/
theorem c5_first_strict_selection :
    (∀ me f s, game_value me s = 0 →
      minimaxAux me (f + 1) s true =
        bestMax ((_generate_successors me s me).map
          (fun sm => ((minimaxAux me f sm.1 false).1, sm.2))) ∧
      minimaxAux me (f + 1) s false =
        bestMin ((_generate_successors me s (other me)).map
          (fun sm => ((minimaxAux me f sm.1 true).1, sm.2)))) ∧
    (∀ l : List (Val × List Coord),
      (∃ vm ∈ l, (⊥ : Val) < vm.1) →
      ∃ i, ∃ hi : i < l.length,
        bestMax l = ((l.get ⟨i, hi⟩).1, some (l.get ⟨i, hi⟩).2) ∧
        (∀ j, ∀ hj : j < l.length, j < i → (l.get ⟨j, hj⟩).1 < (l.get ⟨i, hi⟩).1) ∧
        (∀ j, ∀ hj : j < l.length, (l.get ⟨j, hj⟩).1 ≤ (l.get ⟨i, hi⟩).1)) ∧
    (∀ l : List (Val × List Coord),
      (∃ vm ∈ l, vm.1 < (⊤ : Val)) →
      ∃ i, ∃ hi : i < l.length,
        bestMin l = ((l.get ⟨i, hi⟩).1, some (l.get ⟨i, hi⟩).2) ∧
        (∀ j, ∀ hj : j < l.length, j < i → (l.get ⟨i, hi⟩).1 < (l.get ⟨j, hj⟩).1) ∧
        (∀ j, ∀ hj : j < l.length, (l.get ⟨i, hi⟩).1 ≤ (l.get ⟨j, hj⟩).1)) := by
  refine ⟨?_, ?_, ?_⟩
  · intro me f s hgv
    exact ⟨minimaxAux_step_max me f s hgv, minimaxAux_step_min me f s hgv⟩
  · intro l hex
    rcases bestMaxAux_spec l ⊥ none with ⟨_, hle⟩ | ⟨i, hi, heq, _, hstrict, hall⟩
    · rcases hex with ⟨vm, hvm, hbot⟩
      exact absurd (hle vm hvm) (not_le_of_lt hbot)
    · exact ⟨i, hi, heq, hstrict, hall⟩
  · intro l hex
    rcases bestMinAux_spec l ⊤ none with ⟨_, hle⟩ | ⟨i, hi, heq, _, hstrict, hall⟩
    · rcases hex with ⟨vm, hvm, htop⟩
      exact absurd (hle vm hvm) (not_le_of_lt htop)
    · exact ⟨i, hi, heq, hstrict, hall⟩

/-- C1 counterexample: `boardSevenX` satisfies every hypothesis of the
claim (drop phase, agent pieces at (0,0),(0,1),(0,2), (0,3) empty, no
winner), yet `make_move` at depth 3 returns [(0,4)], not the winning drop
[(0,3)]: the second root child leads to a blocked opponent, whose empty
minimizing fold yields `float('inf')`, overriding the terminal +1. -/
theorem c1_counterexample :
    (countOccupied boardSevenX < 8 ∧ WF boardSevenX ∧
     getCell boardSevenX 0 0 = Cell.X ∧ getCell boardSevenX 0 1 = Cell.X ∧
     getCell boardSevenX 0 2 = Cell.X ∧ getCell boardSevenX 0 3 = Cell.empty ∧
     findWinner boardSevenX = none) ∧
    make_move Cell.X 3 boardSevenX 0 = [(0, 4)] ∧
    make_move Cell.X 3 boardSevenX 0 ≠ [(0, 3)] := by
  refine ⟨by decide, by decide, by decide⟩

/-- C1 witness board facts and conclusion via the amended theorem. -/
theorem c1_witness : make_move Cell.X 3 boardThreeThree 0 = [(0, 3)] :=
  c1_make_move_completes_row Cell.X (Or.inl rfl) 3 (by norm_num) boardThreeThree
    (by decide) rfl rfl rfl rfl (by decide) (by decide)
    (by
      intro d hd hodd
      have hc : countOccupied boardThreeThree = 6 := by decide
      omega) 0

/-- C2 counterexample: on `boardTwoX` (X at (0,0) and (0,2)) the source
heuristic counts both pieces of the broken row (value 1/2), while the
spec's consecutive-run reading gives 1/4. -/
theorem c2_counterexample :
    findWinner boardTwoX = none ∧
    heuristic_game_value boardTwoX Cell.X = 1 / 2 ∧
    heuristicSpecC2 boardTwoX Cell.X = 1 / 4 ∧
    heuristic_game_value boardTwoX Cell.X ≠ heuristicSpecC2 boardTwoX Cell.X := by
  refine ⟨by decide, by with_unfolding_all decide, by with_unfolding_all decide,
    by with_unfolding_all decide⟩

theorem c2_witness : heuristic_game_value boardTwoX Cell.X =
    ((Lmax (heuristicWindows.map (specWindowCount boardTwoX Cell.X)) : ℚ) -
     (Lmax (heuristicWindows.map (specWindowCount boardTwoX (other Cell.X))) : ℚ)) / 4 :=
  c2_heuristic_window_counts boardTwoX Cell.X (Or.inl rfl) (by decide)

/-- C3 counterexample: on the terminal board `boardTopRow` the minimax
returns no move, so `make_move` falls back to `random.choice`; two random
draws (modelled by picks 0 and 1) return different moves. -/
theorem c3_counterexample :
    make_move Cell.X 3 boardTopRow 0 = [(0, 4)] ∧
    make_move Cell.X 3 boardTopRow 1 = [(1, 0)] ∧
    make_move Cell.X 3 boardTopRow 0 ≠ make_move Cell.X 3 boardTopRow 1 := by
  refine ⟨by decide, by decide, by decide⟩

theorem c3_witness : make_move Cell.X 1 boardEmpty 0 = make_move Cell.X 1 boardEmpty 5 :=
  c3_make_move_deterministic Cell.X 1 boardEmpty 0 5 (by with_unfolding_all decide)

theorem c4_witness :
    _minimax Cell.X 2 boardTopRow 1 true = (vq 1, none) ∧
    _minimax Cell.X 2 boardTwoX 2 true =
      (vq (heuristic_game_value boardTwoX Cell.X), none) := by
  constructor
  · have h := (c4_minimax_terminal_override Cell.X 2 1 boardTopRow true
      (by norm_num)).1 Cell.X (by decide)
    simpa using h
  · exact (c4_minimax_terminal_override Cell.X 2 2 boardTwoX true
      (le_refl 2)).2.1 (by decide) rfl

/-- C5 counterexample: `boardBlocked` is a non-terminal internal node with
one successor, yet depth-3 minimax returns no move: the single child's
value is `float('-inf')` (the opponent can strand the agent completely),
and `-inf > -inf` never fires, so no successor is ever selected. -/
theorem c5_counterexample :
    game_value Cell.X boardBlocked = 0 ∧
    (_generate_successors Cell.X boardBlocked Cell.X).length = 1 ∧
    (minimaxAux Cell.X 3 boardBlocked true).2 = none := by
  refine ⟨by decide, by decide, by with_unfolding_all decide⟩

theorem c5_witness :
    ∃ i, ∃ hi : i < demoKids.length,
      bestMax demoKids = ((demoKids.get ⟨i, hi⟩).1, some (demoKids.get ⟨i, hi⟩).2) ∧
      (∀ j, ∀ hj : j < demoKids.length, j < i →
        (demoKids.get ⟨j, hj⟩).1 < (demoKids.get ⟨i, hi⟩).1) ∧
      (∀ j, ∀ hj : j < demoKids.length,
        (demoKids.get ⟨j, hj⟩).1 ≤ (demoKids.get ⟨i, hi⟩).1) :=
  c5_first_strict_selection.2.1 demoKids
    ⟨(vq 1, [(0, 0)]), by simp [demoKids], bot_lt_vq 1⟩

theorem c6_witness :
    opponent_move boardTopRow Cell.O [((0 : ℤ), (0 : ℤ))] =
      Except.error VErr.destOccupied :=
  (c6_opponent_move_checks boardTopRow Cell.O [(0, 0)]).2.2.1
    (by decide) (by decide) (by decide)

theorem c7_witness :
    _generate_successors Cell.X boardTwoX Cell.X =
      (emptyCells boardTwoX).map (fun rc => (setCell boardTwoX rc.1 rc.2 Cell.X, [rc])) :=
  (c7_generate_successors_spec Cell.X boardTwoX Cell.X).2.1 (by decide)

theorem c8_witness :
    -1 ≤ heuristic_game_value boardTwoX Cell.X ∧
    heuristic_game_value boardTwoX Cell.X ≤ 1 ∧
    ∃ k : ℤ, -4 ≤ k ∧ k ≤ 4 ∧
      heuristic_game_value boardTwoX Cell.X = (k : ℚ) / 4 :=
  c8_heuristic_bounded boardTwoX Cell.X (by decide)

theorem c10_witness :
    (([((2 : ℤ), (0 : ℤ)), ((1 : ℤ), (0 : ℤ))] : List (ℤ × ℤ)).getD 0 (0, 0)) ≠
      (([((2 : ℤ), (0 : ℤ)), ((1 : ℤ), (0 : ℤ))] : List (ℤ × ℤ)).getD 1 (0, 0)) :=
  c10_no_null_relocation boardThreeThree Cell.O (Or.inr rfl)
    [((2 : ℤ), (0 : ℤ)), ((1 : ℤ), (0 : ℤ))]
    (place_piece boardThreeThree [((2 : ℤ), (0 : ℤ)), ((1 : ℤ), (0 : ℤ))] Cell.O)
    (by decide) (by rfl)
